import Mathlib

/-!
Verification of the turbo_apply job-scraper core: the deterministic
folder-naming engine (`processor.py`) and the HTML job-data extraction
cascade (`scraper.py`).  Strings are modelled as `List Char`; documents
are modelled as the event stream produced by the standard-library
streaming markup tokenizer (start tag / end tag / text), which is an
external collaborator of the code under verification.
-/

namespace TurboApply

/-- Strings from the Python source, modelled as lists of characters. -/
abbrev Str := List Char

/-! ## Basic string utilities shared by the source functions -/

/-- Characters matching the regex class `[A-Za-z0-9]` (ASCII alphanumeric),
as used by `_split_words` in `processor.py`. -/
def isAlnumCh (c : Char) : Bool := c.isAlphanum

/-- Whitespace characters stripped/split by Python `str.strip()` / `str.split()`. -/
def isPySpace (c : Char) : Bool :=
  c = ' ' || c = '\t' || c = '\n' || c = '\r' || c = '\x0b' || c = '\x0c'

/-- Maximal runs of characters satisfying `p` (everything else acts as a
separator and is dropped).  `tokensBy isAlnumCh` models
`re.sub(r"[^A-Za-z0-9]+", " ", text).strip().split()`;
`tokensBy (fun c => !isPySpace c)` models `str.split()` with no argument. -/
def tokensByGo (p : Char → Bool) : Str → Str → List Str
  | [], cur => if cur = [] then [] else [cur.reverse]
  | c :: rest, cur =>
    if p c then tokensByGo p rest (c :: cur)
    else if cur = [] then tokensByGo p rest []
    else cur.reverse :: tokensByGo p rest []

def tokensBy (p : Char → Bool) (s : Str) : List Str := tokensByGo p s []

/-- `sep.join(ws)` for a one-character separator. -/
def joinCh (sep : Char) : List Str → Str
  | [] => []
  | [w] => w
  | w :: rest => w ++ sep :: joinCh sep rest

/-- `"-".join(ws)`. -/
def joinDash : List Str → Str := joinCh '-'

/-- `str.strip()` (Python whitespace, both ends). -/
def stripPyWs (s : Str) : Str :=
  ((s.dropWhile isPySpace).reverse.dropWhile isPySpace).reverse

/-- `str.strip("-")`: drop leading dashes. -/
def lstripDash (s : Str) : Str := s.dropWhile (fun c => c = '-')

/-- `str.rstrip("-")`: drop trailing dashes. -/
def rstripDash (s : Str) : Str := (s.reverse.dropWhile (fun c => c = '-')).reverse

/-- `str.strip("-")`. -/
def stripDash (s : Str) : Str := rstripDash (lstripDash s)

/-- `str.strip(" .")`. -/
def stripDotSpace (s : Str) : Str :=
  let p : Char → Bool := fun c => c = ' ' || c = '.'
  ((s.dropWhile p).reverse.dropWhile p).reverse

/-! ## processor.py — the naming engine -/

/-- `_split_words`: replace runs of non-alphanumerics by spaces, then split. -/
def split_words (s : Str) : List Str := tokensBy isAlnumCh s

/-- `_abbreviate_title`: each word longer than 4 characters is cut to its
first 4 characters; words joined with `-`. -/
def abbreviate_title (t : Str) : Str :=
  joinDash ((split_words t).map (fun w => w.take 4))

/-- The fixed stop-set of CSS/layout keywords in `_is_noise_word`. -/
def noiseStopSet : List Str :=
  [("webkit".toList), ("ms".toList), ("inline".toList), ("block".toList),
   ("flex".toList), ("display".toList), ("margin".toList), ("padding".toList),
   ("size".toList), ("color".toList), ("inherit".toList), ("vertical".toList),
   ("align".toList), ("start".toList), ("end".toList), ("auto".toList),
   ("rem".toList), ("em".toList), ("px".toList)]

/-- `_is_noise_word`. -/
def is_noise_word (w : Str) : Bool :=
  let lower := w.map Char.toLower
  if lower = ("true".toList) || lower = ("false".toList) then true
  else if lower.take 3 = ("css".toList) then true
  else if noiseStopSet.contains lower then true
  else if w.length > 24 then true
  else if w.length > 4 && w.any Char.isDigit && w.any Char.isAlpha then true
  else false

/-- Loop of `_filter_company_words`: `acc` holds accepted words in reverse. -/
def fcwGo (maxWords : Nat) : List Str → List Str → List Str
  | [], acc => acc.reverse
  | w :: rest, acc =>
    if is_noise_word w then
      if acc = [] then fcwGo maxWords rest [] else acc.reverse
    else if acc.length + 1 ≥ maxWords then (w :: acc).reverse
    else fcwGo maxWords rest (w :: acc)

/-- `_filter_company_words`. -/
def filter_company_words (ws : List Str) (maxWords : Nat := 6) : List Str :=
  fcwGo maxWords ws []

/-- `_company_slug`: filtered words, falling back to the first 4 raw words. -/
def company_slug (c : Str) : Str :=
  let ws := filter_company_words (split_words c)
  if ws = [] then joinDash ((split_words c).take 4) else joinDash ws

theorem dropWhile_length_le (p : Char → Bool) (l : Str) :
    (l.dropWhile p).length ≤ l.length := by
  induction l with
  | nil => simp
  | cons c rest ih =>
    simp only [List.dropWhile]
    cases p c with
    | true => simpa using Nat.le_succ_of_le ih
    | false => simp

/-- `re.sub(r"-{2,}", "-", s)`: collapse each run of dashes to one dash
(a dash directly followed by another dash is dropped). -/
def collapseDashes : Str → Str
  | [] => []
  | [c] => [c]
  | c :: d :: rest =>
    if c = '-' ∧ d = '-' then collapseDashes (d :: rest)
    else c :: collapseDashes (d :: rest)

/-- `str.split("-")` (keeps empty chunks, like Python). -/
def splitOnDash : Str → List Str
  | [] => [[]]
  | '-' :: rest => [] :: splitOnDash rest
  | c :: rest =>
    match splitOnDash rest with
    | [] => [[c]]
    | w :: ws => (c :: w) :: ws

/-- Loop of `_trim_slug`: keep appending whole parts while the joined
candidate stays within `maxLen`; the first part is always kept. -/
def trimGo (maxLen : Nat) : List Str → List Str → List Str
  | [], acc => acc.reverse
  | p :: rest, acc =>
    if acc = [] then trimGo maxLen rest [p]
    else if (joinDash (acc.reverse ++ [p])).length > maxLen then acc.reverse
    else trimGo maxLen rest (p :: acc)

/-- `_trim_slug`. -/
def trim_slug (slug : Str) (maxLen : Nat := 80) : Str :=
  let cleaned := stripDash (collapseDashes slug)
  if cleaned.length ≤ maxLen then cleaned
  else
    let parts := splitOnDash cleaned
    let result := stripDash (joinDash (trimGo maxLen parts []))
    if result = [] then rstripDash (cleaned.take maxLen) else result

/-- The Windows reserved device names checked by `_normalize_slug_for_platform`. -/
def windowsReservedNames : List Str :=
  [("CON".toList), ("PRN".toList), ("AUX".toList), ("NUL".toList),
   ("COM1".toList), ("COM2".toList), ("COM3".toList), ("COM4".toList),
   ("COM5".toList), ("COM6".toList), ("COM7".toList), ("COM8".toList),
   ("COM9".toList), ("LPT1".toList), ("LPT2".toList), ("LPT3".toList),
   ("LPT4".toList), ("LPT5".toList), ("LPT6".toList), ("LPT7".toList),
   ("LPT8".toList), ("LPT9".toList)]

/-- `_normalize_slug_for_platform`; `isWin` models `os.name == "nt"`. -/
def normalize_slug_for_platform (isWin : Bool) (slug : Str) : Str :=
  let cleaned := stripDotSpace slug
  if cleaned = [] then ("Job-Posting".toList)
  else
    let cleaned2 :=
      if isWin then
        let base := (cleaned.takeWhile (fun c => c ≠ '.')).map Char.toUpper
        if windowsReservedNames.contains base then
          stripDotSpace (cleaned ++ ('-' :: ("job".toList)))
        else cleaned
      else cleaned
    if cleaned2 = [] then ("Job-Posting".toList) else cleaned2

/-- `make_folder_name`. -/
def make_folder_name (isWin : Bool) (title company : Str) : Str :=
  let title_part := abbreviate_title title
  let company_part := company_slug company
  let slug :=
    if title_part ≠ [] ∧ company_part ≠ [] then
      trim_slug (title_part ++ '-' :: company_part)
    else
      trim_slug (if title_part ≠ [] then title_part
                 else if company_part ≠ [] then company_part
                 else ("Job-Posting".toList))
  trim_slug (normalize_slug_for_platform isWin slug)

/-! ## scraper.py — streaming markup consumers

A document is modelled as the event stream produced by the standard
library's streaming HTML tokenizer (`html.parser.HTMLParser`, an external
collaborator): start tags carry the attribute list with names already
lower-cased by the tokenizer, end tags carry the tag name, text events
carry character data.  The repository's own logic lives entirely in the
event handlers, which are embedded below as folds over the event list. -/

inductive Event where
  | startTag (tag : Str) (attrs : List (Str × Str))
  | endTag (tag : Str)
  | text (data : Str)
deriving DecidableEq

/-- Lower-case a tag name, as the handlers do via `tag.lower()`. -/
def lowerS (s : Str) : Str := s.map Char.toLower

/-- `dict(attrs).get(k)`: Python dict construction keeps the last binding of
a duplicated key. -/
def attrGet (attrs : List (Str × Str)) (k : Str) : Option Str :=
  (attrs.reverse.find? (fun p => p.1 = k)).map (fun p => p.2)

/-- Python `a or b` on optional strings (`None` and `""` are falsy). -/
def pyOrOpt (a b : Option Str) : Option Str :=
  match a with
  | some v => if v = [] then b else some v
  | none => b

/-- Python `a or ""` on an optional string. -/
def pyOrEmpty (a : Option Str) : Str :=
  match a with
  | some v => v
  | none => []

/-- Truthiness of an optional string. -/
def optTruthy (a : Option Str) : Bool :=
  match a with
  | some v => v ≠ []
  | none => false

/-- Python `pat in s` on strings. -/
def hasSubstr (pat : Str) : Str → Bool
  | [] => pat.isPrefixOf []
  | s@(_ :: rest) => pat.isPrefixOf s || hasSubstr pat rest

/-- Python `str.splitlines()` (on `\n`, `\r\n`, `\r`). -/
def splitLinesGo : Str → Str → List Str
  | [], cur => if cur = [] then [] else [cur.reverse]
  | '\r' :: '\n' :: rest, cur => cur.reverse :: splitLinesGo rest []
  | '\n' :: rest, cur => cur.reverse :: splitLinesGo rest []
  | '\r' :: rest, cur => cur.reverse :: splitLinesGo rest []
  | c :: rest, cur => splitLinesGo rest (c :: cur)

def splitLines (s : Str) : List Str := splitLinesGo s []

/-- `_clean_text`: `" ".join(value.split()).strip()`. -/
def clean_text (s : Str) : Str :=
  joinCh ' ' (tokensBy (fun c => !isPySpace c) s)

/-- `_clean_lines`: strip every line, drop blank lines, join with `\n`. -/
def clean_lines (s : Str) : Str :=
  joinCh '\n' (((splitLines s).map stripPyWs).filter (fun l => l ≠ []))

/-! ### `_ScriptCollector` -/

structure ScriptState where
  inScript : Bool
  stype : Option Str
  buf : List Str
  scripts : List (Option Str × Str)

def scriptInit : ScriptState := ⟨false, none, [], []⟩

/-- `_ScriptCollector.handle_starttag`: entering any `<script>` resets the
buffer and records the last `type` attribute. -/
def scriptStart (st : ScriptState) (tag : Str) (attrs : List (Str × Str)) : ScriptState :=
  if lowerS tag = ("script".toList) then
    { st with inScript := true
              stype := attrs.foldl
                (fun acc p => if lowerS p.1 = ("type".toList) then some p.2 else acc) none
              buf := [] }
  else st

/-- `_ScriptCollector.handle_data`. -/
def scriptData (st : ScriptState) (data : Str) : ScriptState :=
  if st.inScript then { st with buf := st.buf ++ [data] } else st

/-- `_ScriptCollector.handle_endtag`. -/
def scriptEnd (st : ScriptState) (tag : Str) : ScriptState :=
  if lowerS tag = ("script".toList) && st.inScript then
    { inScript := false, stype := none, buf := [],
      scripts := st.scripts ++ [(st.stype, stripPyWs st.buf.flatten)] }
  else st

def scriptStep (st : ScriptState) : Event → ScriptState
  | .startTag t a => scriptStart st t a
  | .endTag t => scriptEnd st t
  | .text d => scriptData st d

/-- All `(type, content)` pairs collected from a document's script elements. -/
def collect_scripts (doc : List Event) : List (Option Str × Str) :=
  (doc.foldl scriptStep scriptInit).scripts

/-! ### `_TextExtractor` and `_strip_html` -/

def textStep (parts : List Str) : Event → List Str
  | .startTag t _ =>
    if lowerS t = ("br".toList) || lowerS t = ("p".toList) || lowerS t = ("li".toList)
    then parts ++ [['\n']] else parts
  | .endTag t =>
    if lowerS t = ("p".toList) || lowerS t = ("li".toList) ||
       lowerS t = ("ul".toList) || lowerS t = ("ol".toList)
    then parts ++ [['\n']] else parts
  | .text d => parts ++ [d]

/-- `_TextExtractor.get_text` applied after feeding a list of events. -/
def text_of_events (evs : List Event) : Str :=
  clean_lines (evs.foldl textStep []).flatten

/-- A minimal model of the standard-library HTML tokenizer, used where the
source feeds a string (a JSON-LD `description` payload) to a fresh parser.
It handles plain start tags, end tags and text; attributes are not
reconstructed because the only consumer (`_TextExtractor`) ignores them,
and character-reference unescaping is not modelled. -/
def tokGo : Nat → Str → List Event
  | 0, _ => []
  | _ + 1, [] => []
  | fuel + 1, '<' :: '/' :: rest =>
    let name := rest.takeWhile (fun c => c ≠ '>')
    .endTag name :: tokGo fuel ((rest.dropWhile (fun c => c ≠ '>')).drop 1)
  | fuel + 1, '<' :: rest =>
    let inside := rest.takeWhile (fun c => c ≠ '>')
    let name := inside.takeWhile (fun c => c ≠ ' ' && c ≠ '/' && c ≠ '\t' && c ≠ '\n')
    .startTag name [] :: tokGo fuel ((rest.dropWhile (fun c => c ≠ '>')).drop 1)
  | fuel + 1, s =>
    let chunk := s.takeWhile (fun c => c ≠ '<')
    .text chunk :: tokGo fuel (s.dropWhile (fun c => c ≠ '<'))

def tokenizeHtml (s : Str) : List Event := tokGo (s.length + 1) s

/-- `_strip_html`. -/
def strip_html (s : Str) : Str := text_of_events (tokenizeHtml s)

/-! ### `_MetaExtractor` -/

/-- `_MetaExtractor.handle_starttag`: index `content` under `property`
(preferred) or `name`; entries are appended, lookups take the last binding
(Python dict assignment). -/
def metaStep (m : List (Str × Str)) : Event → List (Str × Str)
  | .startTag t attrs =>
    if lowerS t = ("meta".toList) then
      let key := pyOrOpt (attrGet attrs ("property".toList)) (attrGet attrs ("name".toList))
      let value := attrGet attrs ("content".toList)
      if optTruthy key && optTruthy value then
        m ++ [(pyOrEmpty key, pyOrEmpty value)]
      else m
    else m
  | _ => m

def collect_meta (doc : List Event) : List (Str × Str) :=
  doc.foldl metaStep []

/-- `meta.get(k)` with last-write-wins semantics. -/
def metaGet (m : List (Str × Str)) (k : Str) : Option Str :=
  (m.reverse.find? (fun p => p.1 = k)).map (fun p => p.2)

/-! ### `_IndeedHTMLExtractor` -/

/-- `_looks_like_name`. -/
def looks_like_name (v : Str) : Bool :=
  let cleaned := stripPyWs v
  if cleaned = [] then false
  else
    let lowered := cleaned.map Char.toLower
    if lowered = ("true".toList) || lowered = ("false".toList) then false
    else cleaned.any Char.isAlpha

/-- `_is_company_tag`. -/
def is_company_tag (attrs : List (Str × Str)) : Bool :=
  if (attrGet attrs ("data-company-name".toList)).isSome ||
     (attrGet attrs ("data-companyname".toList)).isSome then true
  else
    let testid := lowerS (stripPyWs (pyOrEmpty (attrGet attrs ("data-testid".toList))))
    if testid = ("company-name".toList) || testid = ("companyname".toList) ||
       testid = ("company-name-link".toList) then true
    else if hasSubstr ("company".toList) testid && hasSubstr ("name".toList) testid then true
    else
      let classLower := lowerS (pyOrEmpty (attrGet attrs ("class".toList)))
      hasSubstr ("companyname".toList) classLower ||
        hasSubstr ("company-name".toList) classLower

/-- `_is_description_tag`. -/
def is_description_tag (attrs : List (Str × Str)) : Bool :=
  if attrGet attrs ("id".toList) = some ("jobDescriptionText".toList) then true
  else
    let testid := stripPyWs (pyOrEmpty (attrGet attrs ("data-testid".toList)))
    if testid = ("jobDescriptionText".toList) || testid = ("job-description".toList) then true
    else
      let classAttr := pyOrEmpty (attrGet attrs ("class".toList))
      hasSubstr ("jobDescriptionText".toList) classAttr ||
        hasSubstr ("jobsearch-jobDescriptionText".toList) classAttr

structure IndeedState where
  titleDepth : Nat
  companyDepth : Nat
  descDepth : Nat
  titleParts : List Str
  companyParts : List Str
  descParts : List Str
deriving DecidableEq

def indeedInit : IndeedState := ⟨0, 0, 0, [], [], []⟩

/-- `_IndeedHTMLExtractor.handle_starttag`. -/
def indeedStart (st : IndeedState) (tag0 : Str) (attrs : List (Str × Str)) : IndeedState :=
  let tag := lowerS tag0
  let td := if st.titleDepth ≠ 0 then st.titleDepth + 1 else st.titleDepth
  let cd := if st.companyDepth ≠ 0 then st.companyDepth + 1 else st.companyDepth
  let dd := if st.descDepth ≠ 0 then st.descDepth + 1 else st.descDepth
  let td := if td = 0 && tag = ("h1".toList) then 1 else td
  let cd := if cd = 0 && is_company_tag attrs then 1 else cd
  let dd := if dd = 0 && is_description_tag attrs then 1 else dd
  let descParts :=
    if dd ≠ 0 && (tag = ("br".toList) || tag = ("p".toList) || tag = ("li".toList))
    then st.descParts ++ [['\n']] else st.descParts
  let companyAttr := pyOrOpt (attrGet attrs ("data-company-name".toList))
    (attrGet attrs ("data-companyname".toList))
  let companyParts :=
    match companyAttr with
    | some v => if v ≠ [] && looks_like_name v then st.companyParts ++ [v] else st.companyParts
    | none => st.companyParts
  { titleDepth := td, companyDepth := cd, descDepth := dd,
    titleParts := st.titleParts, companyParts := companyParts, descParts := descParts }

/-- `_IndeedHTMLExtractor.handle_endtag`.  The source guards each
decrement with `if depth:`; saturating `Nat` subtraction is the same. -/
def indeedEnd (st : IndeedState) (tag0 : Str) : IndeedState :=
  let tag := lowerS tag0
  let descParts :=
    if st.descDepth ≠ 0 && (tag = ("p".toList) || tag = ("li".toList) ||
        tag = ("ul".toList) || tag = ("ol".toList))
    then st.descParts ++ [['\n']] else st.descParts
  { st with
    descParts := descParts,
    titleDepth := st.titleDepth - 1,
    companyDepth := st.companyDepth - 1,
    descDepth := st.descDepth - 1 }

/-- `_IndeedHTMLExtractor.handle_data`. -/
def indeedData (st : IndeedState) (data : Str) : IndeedState :=
  { st with
    titleParts := if st.titleDepth ≠ 0 then st.titleParts ++ [data] else st.titleParts,
    companyParts := if st.companyDepth ≠ 0 then st.companyParts ++ [data] else st.companyParts,
    descParts := if st.descDepth ≠ 0 then st.descParts ++ [data] else st.descParts }

def indeedStep (st : IndeedState) : Event → IndeedState
  | .startTag t a => indeedStart st t a
  | .endTag t => indeedEnd st t
  | .text d => indeedData st d

def indeed_extract (doc : List Event) : IndeedState :=
  doc.foldl indeedStep indeedInit

/-- `_IndeedHTMLExtractor.get_title`. -/
def indeed_get_title (st : IndeedState) : Str := clean_text (joinCh ' ' st.titleParts)

/-- `_IndeedHTMLExtractor.get_company`. -/
def indeed_get_company (st : IndeedState) : Str := clean_text (joinCh ' ' st.companyParts)

/-- `_IndeedHTMLExtractor.get_description`. -/
def indeed_get_description (st : IndeedState) : Str := clean_lines st.descParts.flatten

/-! ### Parsed JSON payloads and the structured-data locator -/

/-- Values produced by `json.loads` (numbers are modelled as integers:
the source only ever consults their truthiness). -/
inductive JVal where
  | jnull
  | jbool (b : Bool)
  | jnum (n : Int)
  | jstr (s : Str)
  | jarr (xs : List JVal)
  | jobj (fields : List (Str × JVal))

/-- Python truthiness of a JSON value. -/
def jTruthy : JVal → Bool
  | .jnull => false
  | .jbool b => b
  | .jnum n => n ≠ 0
  | .jstr s => s ≠ []
  | .jarr xs => !xs.isEmpty
  | .jobj fs => !fs.isEmpty

/-- `v == "lit"` for a Python string literal. -/
def jIsStr (v : JVal) (lit : Str) : Bool :=
  match v with
  | .jstr s => s = lit
  | _ => false

/-- `dict.get k` on a parsed JSON object (`json.loads` keeps the last
binding of a duplicated key). -/
def jGet (fields : List (Str × JVal)) (k : Str) : Option JVal :=
  (fields.reverse.find? (fun p => p.1 = k)).map (fun p => p.2)

/-- Python `a or b` where `a` is an optional JSON value. -/
def pyOrJ (a : Option JVal) (b : JVal) : JVal :=
  match a with
  | some v => if jTruthy v then v else b
  | none => b

/-- `_is_job_posting`. -/
def is_job_posting : JVal → Bool
  | .jobj fields =>
    match jGet fields ("@type".toList) with
    | some (.jarr l) => l.any (fun v => jIsStr v ("JobPosting".toList))
    | some v => jIsStr v ("JobPosting".toList)
    | none => false
  | _ => false

mutual
/-- `_find_job_posting`: depth-first search, document order, first match. -/
def find_job_posting : JVal → Option JVal
  | .jobj fields =>
    if is_job_posting (.jobj fields) then some (.jobj fields)
    else findJpFields fields
  | .jarr xs => findJpList xs
  | _ => none

def findJpFields : List (Str × JVal) → Option JVal
  | [] => none
  | (_, v) :: rest =>
    match find_job_posting v with
    | some r => some r
    | none => findJpFields rest

def findJpList : List JVal → Option JVal
  | [] => none
  | v :: rest =>
    match find_job_posting v with
    | some r => some r
    | none => findJpList rest
end

/-- `json.loads` is an external collaborator; it is passed in as a partial
parsing function (`none` models a `json.JSONDecodeError`). -/
abbrev JParse := Str → Option JVal

/-- `_extract_json_ld` applied to an already collected script list: keep
scripts with non-empty content and no type or type `application/ld+json`,
parse each, and silently skip the ones that fail to parse. -/
def extract_json_ld_scripts (jp : JParse) (scripts : List (Option Str × Str)) : List JVal :=
  scripts.filterMap (fun pr =>
    if pr.2 = [] then none
    else match pr.1 with
      | some t =>
        if t ≠ [] ∧ lowerS t ≠ ("application/ld+json".toList) then none else jp pr.2
      | none => jp pr.2)

/-- `_extract_json_ld`. -/
def extract_json_ld (jp : JParse) (doc : List Event) : List JVal :=
  extract_json_ld_scripts jp (collect_scripts doc)

/-- The normalized job record `{title, company, description}`. -/
structure JobRec where
  title : Str
  company : Str
  description : Str
deriving DecidableEq

/-- `hiringOrganization` in list form: the first dict element with a truthy
`name` supplies the company value. -/
def firstNamed : List JVal → JVal
  | [] => .jstr []
  | .jobj f :: rest =>
    match jGet f ("name".toList) with
    | some v => if jTruthy v then v else firstNamed rest
    | none => firstNamed rest
  | _ :: rest => firstNamed rest

/-- `_normalize_job`.  Returns `none` where the Python code would raise
(`.strip()` or `_strip_html` applied to a truthy non-string JSON value);
`_find_job_posting` only ever supplies objects, so the non-object case is
unreachable and also maps to `none`. -/
def normalize_job : JVal → Option JobRec
  | .jobj fields =>
    let titleV := pyOrJ (jGet fields ("title".toList))
      (pyOrJ (jGet fields ("name".toList)) (.jstr []))
    let companyV :=
      match jGet fields ("hiringOrganization".toList) with
      | some (.jobj org) => pyOrJ (jGet org ("name".toList)) (.jstr [])
      | some (.jarr items) => firstNamed items
      | _ => .jstr []
    let descV := pyOrJ (jGet fields ("description".toList)) (.jstr [])
    match titleV, companyV, descV with
    | .jstr t, .jstr c, .jstr d =>
      some ⟨stripPyWs t, stripPyWs c, stripPyWs (strip_html d)⟩
    | _, _, _ => none
  | _ => none

/-- First JobPosting found across the parsed payloads, in document order. -/
def firstJobPosting : List JVal → Option JVal
  | [] => none
  | p :: rest =>
    match find_job_posting p with
    | some jp => some jp
    | none => firstJobPosting rest

/-- `parse_indeed_job`: `.ok (some r)` when a JobPosting is found and
normalizes, `.ok none` when no payload holds a JobPosting, `.error ()`
when the Python code would raise while normalizing. -/
def parse_indeed_job (jp : JParse) (doc : List Event) : Except Unit (Option JobRec) :=
  match firstJobPosting (extract_json_ld jp doc) with
  | none => .ok none
  | some v =>
    match normalize_job v with
    | some r => .ok (some r)
    | none => .error ()

/-- `parse_indeed_html`: depth-tracking extraction with meta-tag fallback
for a missing title or description (never for a missing company).  The
source builds the meta index inside `if not title or not company:`; since
the fallback assignment is itself guarded by `if not title:`, dropping the
outer guard is behaviour-equivalent. -/
def parse_indeed_html (doc : List Event) : Option JobRec :=
  let st := indeed_extract doc
  let title0 := indeed_get_title st
  let company := indeed_get_company st
  let desc0 := indeed_get_description st
  let meta := collect_meta doc
  let title :=
    if title0 = [] then
      clean_text (pyOrEmpty (pyOrOpt (metaGet meta ("og:title".toList))
        (metaGet meta ("twitter:title".toList))))
    else title0
  let description :=
    if desc0 = [] then
      clean_lines (pyOrEmpty (pyOrOpt (metaGet meta ("og:description".toList))
        (metaGet meta ("description".toList))))
    else desc0
  if title ≠ [] ∨ company ≠ [] ∨ description ≠ [] then
    some ⟨stripPyWs title, stripPyWs company, stripPyWs description⟩
  else none

/-- `_is_linkedin_auth_wall` (the `"isLoggedIn":false` indicator is kept
verbatim: the page text is lower-cased first, so its capital `L` can
never match — a quirk of the source). -/
def is_linkedin_auth_wall (html : Str) : Bool :=
  let lower := html.map Char.toLower
  [("sign in to view".toList), ("join now to see".toList), ("authwall".toList),
   ("sign in or join".toList), ("login-form".toList),
   ("\"isLoggedIn\":false".toList)].any (fun ind => hasSubstr ind lower)

/-- Reconstruction of the raw markup that the tokenizer consumed, used by
the failure diagnostics in `scrape_job`, which search the raw page text. -/
def render_events (doc : List Event) : Str :=
  (doc.map (fun ev =>
    match ev with
    | .startTag t attrs =>
      '<' :: t ++ (attrs.map (fun p => ' ' :: p.1 ++ '=' :: '"' :: p.2 ++ ['"'])).flatten ++ ['>']
    | .endTag t => '<' :: '/' :: t ++ ['>']
    | .text d => d)).flatten

inductive ScrapeErr where
  | blocked
  | authRequired
  | noData
  | raised
deriving DecidableEq

/-- `scrape_job` after the fetch: the extraction cascade with failure
diagnostics.  `isLinkedin` models `"linkedin.com" in url.lower()`; the
LinkedIn-specific parser (`parse_linkedin_job`, a regex scrape of the raw
markup that no claim depends on) is passed in as a function, so every
theorem below holds for the actual implementation. -/
def scrape_job (jp : JParse) (liParse : List Event → Option JobRec)
    (isLinkedin : Bool) (doc : List Event) : Except ScrapeErr JobRec :=
  match parse_indeed_job jp doc with
  | .error () => .error .raised
  | .ok (some r) => .ok r
  | .ok none =>
    let job2 := if isLinkedin then liParse doc else none
    match job2 with
    | some r => .ok r
    | none =>
      match parse_indeed_html doc with
      | some r => .ok r
      | none =>
        let html := render_events doc
        let lowerHtml := html.map Char.toLower
        if hasSubstr ("captcha".toList) lowerHtml ||
           hasSubstr ("verify you are a human".toList) lowerHtml then
          .error .blocked
        else if isLinkedin && is_linkedin_auth_wall html then
          .error .authRequired
        else
          .error .noData

/-! ## processor.py — `process_job` with its filesystem effects -/

/-- The filesystem effects `process_job` can perform, in the order the
source performs them. -/
inductive FsOp where
  | ensureFolder (name : Str)
  | writeDescription (folder fname content : Str) (sourceUrl : Option Str)
  | writePrompt (folder fname : Str)
  | copyTemplate (folder fname : Str) (french : Bool)
deriving DecidableEq

/-- `process_job`: validation, then naming, then the filesystem effects.
`.error tr` models the `ValueError` raise, carrying the effects performed
before the raise; `.ok (r, tr)` carries the returned folder name and the
effect trace.  `isWin` is threaded to the naming engine. -/
def process_job (isWin : Bool) (titleIn companyIn descIn : Str)
    (sourceUrl : Option Str) (french : Bool) : Except (List FsOp) (Str × List FsOp) :=
  let title := stripPyWs titleIn
  let company := stripPyWs companyIn
  let description := stripPyWs descIn
  if title = [] ∨ company = [] then
    .error []
  else
    let folder_name := make_folder_name isWin title company
    let descContent :=
      if description = [] then ("Description not found.".toList) else description
    .ok (folder_name,
      [ .ensureFolder folder_name,
        .writeDescription folder_name (folder_name ++ (".txt".toList)) descContent sourceUrl,
        .writePrompt folder_name ("prompt.txt".toList),
        .writePrompt folder_name ("prompt-cover.txt".toList),
        .copyTemplate folder_name ("resume-template.tex".toList) french ])

/-! ## Concrete documents and payloads used by witnesses and counterexamples -/

/-- The JSON-LD payload text of the spec's extraction example. -/
def exPayload : Str :=
  ("\x7b\"@type\":\"JobPosting\",\"title\":\"X\",\"hiringOrganization\":\x7b\"name\":\"Y\"\x7d,\"description\":\"<p>Z</p>\"\x7d".toList)

/-- The parsed value of `exPayload`. -/
def exJobPosting : JVal :=
  .jobj [(("@type".toList), .jstr ("JobPosting".toList)),
         (("title".toList), .jstr ("X".toList)),
         (("hiringOrganization".toList), .jobj [(("name".toList), .jstr ("Y".toList))]),
         (("description".toList), .jstr ("<p>Z</p>".toList))]

/-- A JobPosting whose `@type` is a list and whose `hiringOrganization` is a
list; the first element carrying a `name` supplies the company. -/
def exJobListOrg : JVal :=
  .jobj [(("@type".toList), .jarr [.jstr ("Other".toList), .jstr ("JobPosting".toList)]),
         (("name".toList), .jstr ("T2".toList)),
         (("hiringOrganization".toList),
           .jarr [.jobj [(("x".toList), .jstr ("q".toList))],
                  .jobj [(("name".toList), .jstr ("Y2".toList))],
                  .jobj [(("name".toList), .jstr ("W".toList))]])]

/-- A `json.loads` model that parses exactly `exPayload`. -/
def exParse : JParse := fun s => if s = exPayload then some exJobPosting else none

/-- A `json.loads` model under which nothing parses. -/
def noParse : JParse := fun _ => none

/-- A LinkedIn parser stand-in that never yields a record. -/
def noLi : List Event → Option JobRec := fun _ => none

/-- A document holding exactly the spec example's JSON-LD script. -/
def exDocJsonLd : List Event :=
  [.startTag ("script".toList) [(("type".toList), ("application/ld+json".toList))],
   .text exPayload,
   .endTag ("script".toList)]

/-- A document holding both the JSON-LD script and markup that the
site-specific extractor matches (an `h1` title and a company tag). -/
def exDocBoth : List Event :=
  exDocJsonLd ++
  [.startTag ("h1".toList) [], .text ("Other Title".toList), .endTag ("h1".toList),
   .startTag ("div".toList) [(("class".toList), ("company-name".toList))],
   .text ("Other Co".toList), .endTag ("div".toList)]

/-- A document with no structured data that contains the blocking phrase
but also an `h1`, so the generic stage still yields a record. -/
def exDocTitleBlocked : List Event :=
  [.startTag ("h1".toList) [], .text ("Engineer".toList), .endTag ("h1".toList),
   .text ("verify you are a human".toList)]

/-- A document whose only content is the blocking phrase together with an
auth-wall phrase: no stage yields a record. -/
def exDocBlockedAuth : List Event :=
  [.text ("please verify you are a human".toList),
   .text ("authwall".toList)]

/-- A document with two sibling `h1` elements. -/
def exDoc2H1 : List Event :=
  [.startTag ("h1".toList) [], .text ("A".toList), .endTag ("h1".toList),
   .startTag ("h1".toList) [], .text ("B".toList), .endTag ("h1".toList)]

/-- Prefix, `h1` body and suffix for the title-region witness. -/
def exPreC7 : List Event := [.startTag ("div".toList) [], .text ("before".toList)]

def exInnerC7 : List Event :=
  [.startTag ("span".toList) [], .text ("Hello".toList), .endTag ("span".toList),
   .text ("World".toList)]

def exPostC7 : List Event := [.endTag ("div".toList), .text ("after".toList)]

/-- A script whose content is not parseable JSON. -/
def exBadScript : Option Str × Str := (some ("application/ld+json".toList), ("not json".toList))

/-- A document with one malformed JSON-LD script and a meta title, so the
cascade falls through to the generic stage. -/
def exDocBadScriptMeta : List Event :=
  [.startTag ("script".toList) [(("type".toList), ("application/ld+json".toList))],
   .text ("not json".toList),
   .endTag ("script".toList),
   .startTag ("meta".toList)
     [(("property".toList), ("og:title".toList)), (("content".toList), ("Meta Title".toList))]]

/-! ## Predicates used to state the claims -/

/-- `ev` is a start tag that would activate the title counter. -/
def isH1Start : Event → Bool
  | .startTag t _ => lowerS t = ("h1".toList)
  | _ => false

/-- The text data carried by a list of events, in order. -/
def eventTexts (evs : List Event) : List Str :=
  evs.filterMap (fun ev => match ev with | .text d => some d | _ => none)

/-- The events of a properly nested tag body: relative depth (starting at
`d`, one more than the number of still-open ancestors inside the region)
never drops below 1 and returns to 1 at the end, so the first end tag
after the region closes it. -/
def regionBal : List Event → Nat → Bool
  | [], d => d = 1
  | .startTag _ _ :: rest, d => regionBal rest (d + 1)
  | .endTag _ :: rest, d => decide (2 ≤ d) && regionBal rest (d - 1)
  | .text _ :: rest, d => regionBal rest d

/-- No two adjacent characters are both the separator. -/
def NoDD (l : Str) : Prop := List.Chain' (fun a b => a ≠ '-' ∨ b ≠ '-') l

/-- Every dash-free contiguous substring of `l` has length at most `L`
("dash-free-infix bound"). -/
def DFIB (l : Str) (L : Nat) : Prop :=
  ∀ w : Str, '-' ∉ w → w <:+: l → w.length ≤ L

/-! ## Theorems -/

/-- C2 (counterexample): a record with a non-empty title and an empty
company still raises — the claim's "at least one of the two non-empty
proceeds without error" fails on the code. -/
theorem claim_C2_counterexample :
    process_job false (("X".toList)) [] [] none false = .error [] ∧
    stripPyWs (("X".toList)) ≠ [] := by
  constructor
  · rfl
  · decide

/-- C2 (amended): `process_job` raises the validation error exactly when at
least one of title and company is empty after stripping whitespace; it
proceeds to naming only when both are non-empty. -/
theorem claim_C2_amended (isWin : Bool) (t c d : Str) (u : Option Str) (f : Bool) :
    process_job isWin t c d u f = .error [] ↔ (stripPyWs t = [] ∨ stripPyWs c = []) := by
  by_cases h : stripPyWs t = [] ∨ stripPyWs c = [] <;> simp [process_job, h]

/-- C3: whenever the structured-data stage yields a record, `scrape_job`
returns exactly that record — the cascade is strictly ordered, the first
stage wins and no fields are merged from later stages. -/
theorem claim_C3 (jp : JParse) (liP : List Event → Option JobRec) (isLi : Bool)
    (doc : List Event) (r : JobRec)
    (h : parse_indeed_job jp doc = .ok (some r)) :
    scrape_job jp liP isLi doc = .ok r := by
  unfold scrape_job
  rw [h]

/-- C3 (witness): on a document holding both the JSON-LD payload and
markup matched by the site-specific extractor, the JSON-LD record wins. -/
theorem claim_C3_witness :
    parse_indeed_job exParse exDocBoth =
      .ok (some ⟨("X".toList), ("Y".toList), ("Z".toList)⟩) ∧
    parse_indeed_html exDocBoth =
      some ⟨("Other Title".toList), ("Other Co".toList), []⟩ ∧
    scrape_job exParse noLi false exDocBoth =
      .ok ⟨("X".toList), ("Y".toList), ("Z".toList)⟩ := by
  refine ⟨rfl, by decide, ?_⟩
  exact claim_C3 exParse noLi false exDocBoth _ rfl

/-- C10: when `process_job` raises the validation error, the effect trace
it has performed is empty — no folder is created and no file is written;
on success the folder creation is the first effect performed. -/
theorem claim_C10 :
    (∀ (isWin : Bool) (t c d : Str) (u : Option Str) (f : Bool) (tr : List FsOp),
      process_job isWin t c d u f = .error tr → tr = []) ∧
    (∀ (isWin : Bool) (t c d : Str) (u : Option Str) (f : Bool) (name : Str)
        (ops : List FsOp),
      process_job isWin t c d u f = .ok (name, ops) →
      ops.head? = some (.ensureFolder name)) := by
  constructor
  · intro isWin t c d u f tr h
    by_cases hc : stripPyWs t = [] ∨ stripPyWs c = [] <;> simp [process_job, hc] at h
    exact h
  · intro isWin t c d u f name ops h
    by_cases hc : stripPyWs t = [] ∨ stripPyWs c = [] <;>
      simp [process_job, hc, Prod.mk.injEq] at h
    rw [← h.2, ← h.1]
    rfl

/-- C10 (witness): a concrete raising call performed no effects. -/
theorem claim_C10_witness :
    process_job false (("X".toList)) [] [] none false = .error [] ∧
    ([] : List FsOp) = [] := by
  refine ⟨rfl, ?_⟩
  exact claim_C10.1 false (("X".toList)) [] [] none false [] rfl

/-- C4 (counterexample): a document containing "verify you are a human"
and no structured data on which extraction does not fail at all — the
generic stage extracts the `h1` title, so no BlockedError is raised. -/
theorem claim_C4_counterexample :
    hasSubstr (("verify you are a human".toList))
      ((render_events exDocTitleBlocked).map Char.toLower) = true ∧
    scrape_job noParse noLi false exDocTitleBlocked =
      .ok ⟨("Engineer".toList), [], []⟩ := by
  constructor
  · decide
  · rfl

/-- C4 (amended): on a document whose lower-cased markup contains "verify
you are a human" and on which every cascade stage fails, `scrape_job`
raises the blocked-by-site error, not the generic no-data error; the
blocked check precedes the auth-wall and generic diagnoses. -/
theorem claim_C4_amended (jp : JParse) (liP : List Event → Option JobRec)
    (isLi : Bool) (doc : List Event)
    (hverify : hasSubstr (("verify you are a human".toList))
      ((render_events doc).map Char.toLower) = true)
    (h1 : parse_indeed_job jp doc = .ok none)
    (h2 : isLi = true → liP doc = none)
    (h3 : parse_indeed_html doc = none) :
    scrape_job jp liP isLi doc = .error .blocked := by
  unfold scrape_job
  rw [h1]
  have hj2 : (if isLi then liP doc else none) = none := by
    cases isLi
    · rfl
    · simpa using h2 rfl
  simp [hj2, h3, hverify]
  intro hca hfalse
  cases hverify.symm.trans hfalse

/-- C4 (witness): the blocked diagnosis fires on a document that also
shows an auth-wall phrase on the professional-network domain. -/
theorem claim_C4_witness :
    hasSubstr (("verify you are a human".toList))
      ((render_events exDocBlockedAuth).map Char.toLower) = true ∧
    is_linkedin_auth_wall (render_events exDocBlockedAuth) = true ∧
    scrape_job noParse noLi true exDocBlockedAuth = .error .blocked := by
  refine ⟨by decide, by decide, ?_⟩
  exact claim_C4_amended noParse noLi true exDocBlockedAuth (by decide) rfl
    (fun _ => rfl) (by decide)

/-- C8: a script whose content fails to parse is silently skipped — the
parsed payloads are the same as if the script were absent — and when no
payload yields a JobPosting the cascade proceeds to the next stage. -/
theorem claim_C8 :
    (∀ (jp : JParse) (pre post : List (Option Str × Str)) (ty : Option Str) (s : Str),
      jp s = none →
      extract_json_ld_scripts jp (pre ++ (ty, s) :: post) =
        extract_json_ld_scripts jp (pre ++ post)) ∧
    (∀ (jp : JParse) (liP : List Event → Option JobRec) (doc : List Event) (r : JobRec),
      parse_indeed_job jp doc = .ok none → parse_indeed_html doc = some r →
      scrape_job jp liP false doc = .ok r) := by
  constructor
  · intro jp pre post ty s hbad
    unfold extract_json_ld_scripts
    rw [List.filterMap_append, List.filterMap_append, List.filterMap_cons]
    have hmid : (if s = [] then none
        else match ty with
          | some t =>
            if t ≠ [] ∧ lowerS t ≠ (("application/ld+json".toList)) then none else jp s
          | none => jp s) = (none : Option JVal) := by
      by_cases hs : s = []
      · simp [hs]
      · cases ty with
        | none => simp [hs, hbad]
        | some t =>
          by_cases ht : t ≠ [] ∧ lowerS t ≠ (("application/ld+json".toList)) <;>
            simp [hs, ht, hbad]
    simp only [hmid]
  · intro jp liP doc r h1 h2
    unfold scrape_job
    rw [h1]
    simp [h2]

/-- C8 (witness): a malformed JSON-LD script changes nothing, and on a
document holding one malformed script plus a meta title the cascade falls
through to the generic stage. -/
theorem claim_C8_witness :
    extract_json_ld_scripts noParse ([exBadScript]) = extract_json_ld_scripts noParse [] ∧
    parse_indeed_job noParse exDocBadScriptMeta = .ok none ∧
    scrape_job noParse noLi false exDocBadScriptMeta =
      .ok ⟨("Meta Title".toList), [], []⟩ := by
  refine ⟨?_, rfl, ?_⟩
  · exact claim_C8.1 noParse [] [] exBadScript.1 exBadScript.2 rfl
  · exact claim_C8.2 noParse noLi exDocBadScriptMeta _ rfl (by decide)

/-- A single well-typed JSON-LD script contributes exactly the payload the
parse function yields on its content. -/
theorem ejls_single (jp : JParse) :
    extract_json_ld_scripts jp [(some ("application/ld+json".toList), exPayload)] =
      (jp exPayload).toList := rfl

/-- C5: a document whose JSON-LD script parses to the spec example's
JobPosting yields `{title:"X", company:"Y", description:"Z"}`, the
description HTML-stripped by the generic text extractor; and when
`hiringOrganization` is a list, the first element with a `name` supplies
the company. -/
theorem claim_C5 (jp : JParse) (h : jp exPayload = some exJobPosting) :
    parse_indeed_job jp exDocJsonLd =
      .ok (some ⟨("X".toList), ("Y".toList), ("Z".toList)⟩) ∧
    normalize_job exJobListOrg = some ⟨("T2".toList), ("Y2".toList), []⟩ := by
  refine ⟨?_, by decide⟩
  have hscripts : collect_scripts exDocJsonLd =
      [(some ("application/ld+json".toList), exPayload)] := by decide
  have hld : extract_json_ld jp exDocJsonLd = [exJobPosting] := by
    unfold extract_json_ld
    rw [hscripts, ejls_single, h]
    rfl
  unfold parse_indeed_job
  rw [hld]
  rfl

/-- C5 (witness): the concrete parse function that accepts exactly the
example payload. -/
theorem claim_C5_witness :
    parse_indeed_job exParse exDocJsonLd =
      .ok (some ⟨("X".toList), ("Y".toList), ("Z".toList)⟩) ∧
    normalize_job exJobListOrg = some ⟨("T2".toList), ("Y2".toList), []⟩ :=
  claim_C5 exParse (by simp [exParse])

/-- Loop invariant of `_filter_company_words` once a word was accepted:
the loop keeps the accepted prefix and appends further non-noise words,
stopping at the first noise word or at the cap of 6. -/
theorem fcwGo_acc (ws : List Str) : ∀ (acc : List Str), acc ≠ [] → acc.length ≤ 5 →
    fcwGo 6 ws acc =
      acc.reverse ++ (ws.takeWhile (fun w => !is_noise_word w)).take (6 - acc.length) := by
  induction ws with
  | nil => intro acc _ _; simp [fcwGo]
  | cons w rest ih =>
    intro acc hacc hlen
    by_cases hn : is_noise_word w
    · simp [fcwGo, hn, hacc]
    · by_cases hfull : acc.length + 1 ≥ 6
      · have h5 : acc.length = 5 := by omega
        simp [fcwGo, hn, hacc, hfull, h5, List.takeWhile_cons, List.take_succ_cons]
      · have hstep : fcwGo 6 (w :: rest) acc = fcwGo 6 rest (w :: acc) := by
          simp [fcwGo, hn, hacc, hfull]
        rw [hstep, ih (w :: acc) (by simp) (by simp; omega)]
        have hsub : 6 - acc.length = (6 - (acc.length + 1)) + 1 := by omega
        simp [List.takeWhile_cons, hn, hsub, List.take_succ_cons, List.append_assoc]

/-- `_filter_company_words` skips noise words until the first accepted
word, then accumulates non-noise words, stopping (but keeping the prefix)
at the first noise word, capped at 6 accepted words. -/
theorem filter_company_words_eq (ws : List Str) :
    filter_company_words ws =
      ((ws.dropWhile is_noise_word).takeWhile (fun w => !is_noise_word w)).take 6 := by
  induction ws with
  | nil => rfl
  | cons w rest ih =>
    by_cases hn : is_noise_word w
    · have : filter_company_words (w :: rest) = filter_company_words rest := by
        simp [filter_company_words, fcwGo, hn]
      rw [this, ih, List.dropWhile_cons_of_pos hn]
    · have hstep : filter_company_words (w :: rest) = fcwGo 6 rest [w] := by
        simp [filter_company_words, fcwGo, hn]
      rw [hstep, fcwGo_acc rest [w] (by simp) (by simp)]
      rw [List.dropWhile_cons_of_neg (by simp [hn])]
      simp [List.takeWhile_cons, hn, List.take_succ_cons]

/-- C6: the noise filter skips noise before the first accepted word, stops
at the first noise word after acceptance while keeping the accepted
prefix, caps acceptance at 6 words, and when nothing survives the company
slug falls back to the first 4 raw words; on the spec's examples,
`["Acme","Webkit","Studios"]` filters to `["Acme"]` and `"Css123 Flex"`
falls back to `"Css123-Flex"`. -/
theorem claim_C6 :
    (∀ ws : List Str, filter_company_words ws =
      ((ws.dropWhile is_noise_word).takeWhile (fun w => !is_noise_word w)).take 6) ∧
    filter_company_words [("Acme".toList), ("Webkit".toList), ("Studios".toList)] =
      [("Acme".toList)] ∧
    company_slug ("Css123 Flex".toList) = ("Css123-Flex".toList) ∧
    (∀ c : Str, filter_company_words (split_words c) = [] →
      company_slug c = joinDash ((split_words c).take 4)) := by
  refine ⟨filter_company_words_eq, by decide, by decide, ?_⟩
  intro c h
  simp [company_slug, h]

/-- C6 (witness): the all-noise example discharges the fallback branch. -/
theorem claim_C6_witness :
    filter_company_words (split_words ("Css123 Flex".toList)) = [] ∧
    company_slug ("Css123 Flex".toList) =
      joinDash ((split_words ("Css123 Flex".toList)).take 4) := by
  refine ⟨by decide, ?_⟩
  exact claim_C6.2.2.2 ("Css123 Flex".toList) (by decide)

/-- Events containing no `h1` start tag leave the title counter at zero
and capture no title text. -/
theorem indeed_no_h1 (evs : List Event) : ∀ st : IndeedState, st.titleDepth = 0 →
    (∀ ev ∈ evs, isH1Start ev = false) →
    (evs.foldl indeedStep st).titleDepth = 0 ∧
    (evs.foldl indeedStep st).titleParts = st.titleParts := by
  induction evs with
  | nil => intro st h0 _; exact ⟨h0, rfl⟩
  | cons ev rest ih =>
    intro st h0 hall
    have hrest : ∀ e ∈ rest, isH1Start e = false := fun e he => hall e (by simp [he])
    cases ev with
    | startTag t a =>
      have hh1 : ¬(lowerS t = ['h', '1']) := by
        have := hall (.startTag t a) (by simp)
        simpa [isH1Start] using this
      have hst : (indeedStep st (.startTag t a)).titleDepth = 0 ∧
          (indeedStep st (.startTag t a)).titleParts = st.titleParts := by
        constructor
        · simp [indeedStep, indeedStart, h0, hh1]
        · rfl
      rw [List.foldl_cons]
      have := ih (indeedStep st (.startTag t a)) hst.1 hrest
      exact ⟨this.1, this.2.trans hst.2⟩
    | endTag t =>
      have hst : (indeedStep st (.endTag t)).titleDepth = 0 ∧
          (indeedStep st (.endTag t)).titleParts = st.titleParts := by
        constructor
        · simp [indeedStep, indeedEnd, h0]
        · rfl
      rw [List.foldl_cons]
      have := ih (indeedStep st (.endTag t)) hst.1 hrest
      exact ⟨this.1, this.2.trans hst.2⟩
    | text d =>
      have hst : (indeedStep st (.text d)).titleDepth = 0 ∧
          (indeedStep st (.text d)).titleParts = st.titleParts := by
        constructor
        · simp [indeedStep, indeedData, h0]
        · simp [indeedStep, indeedData, h0]
      rw [List.foldl_cons]
      have := ih (indeedStep st (.text d)) hst.1 hrest
      exact ⟨this.1, this.2.trans hst.2⟩

/-- Inside a properly nested region the title counter stays positive (so
every nested tag merely increments and decrements it) and exactly the
region's text events are appended to the title parts. -/
theorem indeed_region (evs : List Event) : ∀ (st : IndeedState) (d : Nat),
    st.titleDepth = d → 1 ≤ d → regionBal evs d = true →
    (evs.foldl indeedStep st).titleDepth = 1 ∧
    (evs.foldl indeedStep st).titleParts = st.titleParts ++ eventTexts evs := by
  induction evs with
  | nil =>
    intro st d hd _ hbal
    have : d = 1 := by simpa [regionBal] using hbal
    exact ⟨hd.trans this, by simp [eventTexts]⟩
  | cons ev rest ih =>
    intro st d hd h1 hbal
    cases ev with
    | startTag t a =>
      have hbal' : regionBal rest (d + 1) = true := by simpa [regionBal] using hbal
      have hst : (indeedStep st (.startTag t a)).titleDepth = d + 1 ∧
          (indeedStep st (.startTag t a)).titleParts = st.titleParts := by
        constructor
        · have hne : st.titleDepth ≠ 0 := by omega
          have hd0 : d ≠ 0 := by omega
          simp [indeedStep, indeedStart, hne, hd, hd0]
        · rfl
      rw [List.foldl_cons]
      have := ih (indeedStep st (.startTag t a)) (d + 1) hst.1 (by omega) hbal'
      refine ⟨this.1, ?_⟩
      rw [this.2, hst.2]
      simp [eventTexts]
    | endTag t =>
      have hbal2 : 2 ≤ d ∧ regionBal rest (d - 1) = true := by
        simpa [regionBal] using hbal
      have hst : (indeedStep st (.endTag t)).titleDepth = d - 1 ∧
          (indeedStep st (.endTag t)).titleParts = st.titleParts := by
        exact ⟨by simp [indeedStep, indeedEnd, hd], rfl⟩
      rw [List.foldl_cons]
      have := ih (indeedStep st (.endTag t)) (d - 1) hst.1 (by omega) hbal2.2
      refine ⟨this.1, ?_⟩
      rw [this.2, hst.2]
      simp [eventTexts]
    | text dt =>
      have hbal' : regionBal rest d = true := by simpa [regionBal] using hbal
      have hst : (indeedStep st (.text dt)).titleDepth = d ∧
          (indeedStep st (.text dt)).titleParts = st.titleParts ++ [dt] := by
        constructor
        · simp [indeedStep, indeedData, hd]
        · have hne : st.titleDepth ≠ 0 := by omega
          simp [indeedStep, indeedData, hne]
      rw [List.foldl_cons]
      have := ih (indeedStep st (.text dt)) d hst.1 h1 hbal'
      refine ⟨this.1, ?_⟩
      rw [this.2, hst.2]
      simp [eventTexts]

/-- C7 (counterexample): with two sibling `h1` elements the extractor
captures both, so the extracted title is not exactly the text of the
first `h1` element ("A") — the counter re-activates at the second `h1`. -/
theorem claim_C7_counterexample :
    indeed_get_title (indeed_extract exDoc2H1) = ("A B".toList) ∧
    indeed_get_title (indeed_extract exDoc2H1) ≠ ("A".toList) := by
  constructor
  · decide
  · decide

/-- C7 (amended): the title counter activates at each `h1` start tag seen
while the counter is zero (not only the first of the document) and stays
active for all descendants until the matching close; hence on a document
whose only `h1` element is the first one, the extracted title is exactly
the cleaned text contained in that element. -/
theorem claim_C7_amended (pre inner post : List Event) (tag : Str)
    (attrs : List (Str × Str)) (etag : Str)
    (htag : lowerS tag = ("h1".toList))
    (hpre : ∀ ev ∈ pre, isH1Start ev = false)
    (hpost : ∀ ev ∈ post, isH1Start ev = false)
    (hbal : regionBal inner 1 = true) :
    (indeed_extract (pre ++ .startTag tag attrs :: (inner ++ .endTag etag :: post))).titleParts
      = eventTexts inner ∧
    indeed_get_title
      (indeed_extract (pre ++ .startTag tag attrs :: (inner ++ .endTag etag :: post)))
      = clean_text (joinCh ' ' (eventTexts inner)) := by
  have hmain : (indeed_extract
      (pre ++ .startTag tag attrs :: (inner ++ .endTag etag :: post))).titleParts
      = eventTexts inner := by
    unfold indeed_extract
    rw [List.foldl_append, List.foldl_cons, List.foldl_append, List.foldl_cons]
    obtain ⟨hpd, hpp⟩ := indeed_no_h1 pre indeedInit rfl hpre
    set st1 := pre.foldl indeedStep indeedInit with hst1
    have hst2d : (indeedStep st1 (.startTag tag attrs)).titleDepth = 1 := by
      simp [indeedStep, indeedStart, hpd, htag]
    have hst2p : (indeedStep st1 (.startTag tag attrs)).titleParts = st1.titleParts := rfl
    obtain ⟨h3d, h3p⟩ :=
      indeed_region inner (indeedStep st1 (.startTag tag attrs)) 1 hst2d (by omega) hbal
    set st3 := inner.foldl indeedStep (indeedStep st1 (.startTag tag attrs)) with hst3
    have hst4d : (indeedStep st3 (.endTag etag)).titleDepth = 0 := by
      simp [indeedStep, indeedEnd, h3d]
    have hst4p : (indeedStep st3 (.endTag etag)).titleParts = st3.titleParts := rfl
    obtain ⟨h5d, h5p⟩ := indeed_no_h1 post (indeedStep st3 (.endTag etag)) hst4d hpost
    rw [h5p, hst4p, h3p, hst2p, hpp]
    simp [indeedInit]
  exact ⟨hmain, by rw [indeed_get_title, hmain]⟩

/-- C7 (witness): a single-`h1` document with a nested span inside the
title region and unrelated markup around it. -/
theorem claim_C7_witness :
    regionBal exInnerC7 1 = true ∧
    indeed_get_title (indeed_extract
      (exPreC7 ++ .startTag ("h1".toList) [] :: (exInnerC7 ++ .endTag ("h1".toList) :: exPostC7)))
      = ("Hello World".toList) := by
  refine ⟨by decide, ?_⟩
  have := (claim_C7_amended exPreC7 exInnerC7 exPostC7 ("h1".toList) [] ("h1".toList)
    (by decide) (by decide) (by decide) (by decide)).2
  rw [this]
  decide

/-! ### Dash-shape invariants of the naming engine -/

theorem head?_dropWhile_false {p : Char → Bool} {l : Str} {a : Char}
    (h : (l.dropWhile p).head? = some a) : p a = false := by
  induction l with
  | nil => simp [List.dropWhile] at h
  | cons c rest ih =>
    by_cases hc : p c
    · rw [List.dropWhile_cons_of_pos hc] at h
      exact ih h
    · rw [List.dropWhile_cons_of_neg hc] at h
      simp at h
      rw [← h]
      exact Bool.eq_false_iff.mpr hc

theorem prefix_head?_eq {l' l : Str} {a : Char} (hp : l' <+: l)
    (h : l'.head? = some a) : l.head? = some a := by
  obtain ⟨t, rfl⟩ := hp
  rw [List.head?_append, h]
  rfl

theorem collapse_head? (l : Str) : (collapseDashes l).head? = l.head? := by
  induction l using collapseDashes.induct with
  | case1 => rfl
  | case2 c => rfl
  | case3 c d rest hcd ih =>
    rw [collapseDashes.eq_3, if_pos hcd, ih, hcd.1, hcd.2]
    rfl
  | case4 c d rest hcd ih =>
    rw [collapseDashes.eq_3, if_neg hcd]
    rfl

theorem collapse_noDD (l : Str) : NoDD (collapseDashes l) := by
  induction l using collapseDashes.induct with
  | case1 => exact List.chain'_nil
  | case2 c => exact List.chain'_singleton c
  | case3 c d rest hcd ih =>
    rw [collapseDashes.eq_3, if_pos hcd]
    exact ih
  | case4 c d rest hcd ih =>
    rw [collapseDashes.eq_3, if_neg hcd]
    rw [NoDD, List.chain'_cons']
    refine ⟨?_, ih⟩
    intro y hy
    rw [collapse_head?] at hy
    simp at hy
    subst hy
    by_cases hc : c = '-'
    · exact Or.inr (fun hd => hcd ⟨hc, hd⟩)
    · exact Or.inl hc

theorem rstripDash_pref (l : Str) : rstripDash l <+: l := by
  have h1 : l.reverse.dropWhile (fun c => c = '-') <:+ l.reverse :=
    List.dropWhile_suffix _
  have h2 := List.reverse_prefix.mpr h1
  rwa [List.reverse_reverse] at h2

theorem lstripDash_suffix (l : Str) : lstripDash l <:+ l := List.dropWhile_suffix _

theorem stripDash_within (l : Str) : stripDash l <:+: l :=
  ((rstripDash_pref (lstripDash l)).isInfix).trans (lstripDash_suffix l).isInfix

theorem stripDotSpace_within (l : Str) : stripDotSpace l <:+: l := by
  unfold stripDotSpace
  have h1 : l.dropWhile (fun c => c = ' ' || c = '.') <:+ l := List.dropWhile_suffix _
  have h2 : ((l.dropWhile (fun c => c = ' ' || c = '.')).reverse.dropWhile
      (fun c => c = ' ' || c = '.')).reverse <+: l.dropWhile (fun c => c = ' ' || c = '.') := by
    have := List.reverse_prefix.mpr
      (List.dropWhile_suffix (l := (l.dropWhile (fun c => c = ' ' || c = '.')).reverse)
        (fun c => c = ' ' || c = '.'))
    rwa [List.reverse_reverse] at this
  exact h2.isInfix.trans h1.isInfix

theorem stripDash_getLast? {l : Str} {a : Char}
    (h : (stripDash l).getLast? = some a) : a ≠ '-' := by
  unfold stripDash rstripDash at h
  rw [List.getLast?_reverse] at h
  have := head?_dropWhile_false h
  simpa using this

theorem stripDash_head? {l : Str} {a : Char}
    (h : (stripDash l).head? = some a) : a ≠ '-' := by
  have hp : (stripDash l).head? = some a → (lstripDash l).head? = some a :=
    prefix_head?_eq (rstripDash_pref (lstripDash l))
  have := head?_dropWhile_false (hp h)
  simpa using this

theorem noDD_within {l' l : Str} (h : NoDD l) (hinf : l' <:+: l) : NoDD l' :=
  List.Chain'.infix h hinf

theorem stripDash_noDD {l : Str} (h : NoDD l) : NoDD (stripDash l) :=
  noDD_within h (stripDash_within l)

/-- A no-double-dash list has no `--` infix. -/
theorem noDD_no_double {l : Str} (h : NoDD l) : ¬ (['-', '-'] <:+: l) := by
  intro hinf
  have hdd : NoDD ['-', '-'] := noDD_within h hinf
  rw [NoDD, List.chain'_cons'] at hdd
  have := hdd.1 '-' rfl
  simp at this

theorem sod_ne_nil (l : Str) : splitOnDash l ≠ [] := by
  induction l using splitOnDash.induct with
  | case1 => simp [splitOnDash]
  | case2 rest ih => simp [splitOnDash]
  | case3 c rest hc hsod ih => simp [splitOnDash, hsod, hc]
  | case4 c rest hc w ws hsod ih => simp [splitOnDash, hsod, hc]

theorem sod_dashFree (l : Str) : ∀ w ∈ splitOnDash l, '-' ∉ w := by
  induction l using splitOnDash.induct with
  | case1 =>
    intro w hw
    rw [splitOnDash.eq_1] at hw
    simp at hw
    simp [hw]
  | case2 rest ih =>
    intro w hw
    rw [splitOnDash.eq_2] at hw
    rcases List.mem_cons.mp hw with h | h
    · simp [h]
    · exact ih w h
  | case3 c rest hc hsod ih =>
    intro w hw
    rw [splitOnDash.eq_3 c rest hc, hsod] at hw
    simp at hw
    subst hw
    simp
    exact fun h => hc h.symm
  | case4 c rest hc w0 ws hsod ih =>
    intro w hw
    rw [splitOnDash.eq_3 c rest hc, hsod] at hw
    rcases List.mem_cons.mp hw with h | h
    · subst h
      intro hmem
      rcases List.mem_cons.mp hmem with h' | h'
      · exact hc h'.symm
      · exact ih w0 (by rw [hsod]; simp) h'
    · exact ih w (by rw [hsod]; exact List.mem_cons_of_mem _ h)

/-- `"-".join` of a cons whose head gains a character. -/
theorem joinDash_cons_head (c : Char) (w : Str) (ws : List Str) :
    joinDash ((c :: w) :: ws) = c :: joinDash (w :: ws) := by
  cases ws <;> rfl

/-- `"-".join` is a left inverse of `str.split("-")`. -/
theorem join_sod (l : Str) : joinDash (splitOnDash l) = l := by
  induction l using splitOnDash.induct with
  | case1 => rfl
  | case2 rest ih =>
    rw [splitOnDash.eq_2]
    rcases hsod : splitOnDash rest with _ | ⟨w, ws⟩
    · exact absurd hsod (sod_ne_nil rest)
    · rw [hsod] at ih
      show joinDash ([] :: w :: ws) = '-' :: rest
      rw [show joinDash ([] :: w :: ws) = '-' :: joinDash (w :: ws) from rfl, ih]
  | case3 c rest hc hsod ih =>
    rw [splitOnDash.eq_3 c rest hc, hsod]
    rw [hsod] at ih
    rw [show joinDash ([] : List Str) = [] from rfl] at ih
    rw [← ih]
    rfl
  | case4 c rest hc w0 ws hsod ih =>
    rw [splitOnDash.eq_3 c rest hc, hsod]
    rw [hsod] at ih
    show joinDash ((c :: w0) :: ws) = c :: rest
    rw [joinDash_cons_head, ih]

/-- A list whose characters are dash-free satisfies the no-double-dash chain. -/
theorem dashFree_noDD {w : Str} (h : '-' ∉ w) : NoDD w := by
  induction w with
  | nil => exact List.chain'_nil
  | cons c rest ih =>
    rw [NoDD, List.chain'_cons']
    refine ⟨fun y _ => Or.inl ?_, ih (fun hm => h (List.mem_cons_of_mem _ hm))⟩
    intro hcd
    exact h (hcd ▸ List.mem_cons_self c rest)

/-- On a non-empty collapsed-and-stripped list, every `split("-")` chunk is
non-empty: a leading/trailing/double dash would be needed to produce one. -/
theorem sod_parts_ne : (l : Str) → l ≠ [] → NoDD l → l.head? ≠ some '-' →
    l.getLast? ≠ some '-' → ∀ w ∈ splitOnDash l, w ≠ []
  | [], hne, _, _, _ => absurd rfl hne
  | [c], _, _, hh, _ => by
    have hc : ¬(c = '-') := fun h => hh (by rw [h]; rfl)
    rw [splitOnDash.eq_3 c [] (fun h => hc h), splitOnDash.eq_1]
    intro w hw
    simp at hw
    simp [hw]
  | c :: d :: rest, _, hnodd, hh, hl => by
    have hc : ¬(c = '-') := fun h => hh (by rw [h]; rfl)
    rw [splitOnDash.eq_3 c (d :: rest) (fun h => hc h)]
    by_cases hd : d = '-'
    · subst hd
      rw [splitOnDash.eq_2]
      have hrest_ne : rest ≠ [] := by
        intro h
        subst h
        exact hl rfl
      have hnodd_rest2 : NoDD rest := by
        have := List.Chain'.tail (List.Chain'.tail hnodd)
        simpa using this
      have hhead_rest : rest.head? ≠ some '-' := by
        intro hsome
        have h2 : List.Chain' (fun a b => a ≠ '-' ∨ b ≠ '-') ('-' :: rest) :=
          List.Chain'.tail hnodd
        rw [List.chain'_cons'] at h2
        have := h2.1 '-' hsome
        simp at this
      have hlast_rest : rest.getLast? ≠ some '-' := by
        obtain ⟨e, rest', rfl⟩ : ∃ e rest', rest = e :: rest' := by
          cases rest with
          | nil => exact absurd rfl hrest_ne
          | cons e r => exact ⟨e, r, rfl⟩
        rw [List.getLast?_cons_cons, List.getLast?_cons_cons] at hl
        exact hl
      have hih := sod_parts_ne rest hrest_ne hnodd_rest2 hhead_rest hlast_rest
      intro w hw
      rcases List.mem_cons.mp hw with h | h
      · subst h; simp
      · exact hih w h
    · have hdr_ne : (d :: rest) ≠ [] := by simp
      have hnodd_dr : NoDD (d :: rest) := List.Chain'.tail hnodd
      have hhead_dr : (d :: rest).head? ≠ some '-' := by
        intro hsome
        simp at hsome
        exact hd hsome
      have hlast_dr : (d :: rest).getLast? ≠ some '-' := by
        cases rest with
        | nil =>
          intro hsome
          simp at hsome
          exact hd hsome
        | cons e r =>
          rw [List.getLast?_cons_cons] at hl
          exact hl
      have hih := sod_parts_ne (d :: rest) hdr_ne hnodd_dr hhead_dr hlast_dr
      rcases hsod : splitOnDash (d :: rest) with _ | ⟨w0, ws⟩
      · exact absurd hsod (sod_ne_nil _)
      · intro w hw
        rcases List.mem_cons.mp hw with h | h
        · subst h; simp
        · exact hih w (by rw [hsod]; exact List.mem_cons_of_mem _ h)

/-- `"-".join` of non-empty words is non-empty. -/
theorem joinDash_ne_nil {ws : List Str} (h : ws ≠ []) (hne : ∀ w ∈ ws, w ≠ []) :
    joinDash ws ≠ [] := by
  cases ws with
  | nil => exact absurd rfl h
  | cons w rest =>
    have hw : w ≠ [] := hne w (List.mem_cons_self _ _)
    cases rest with
    | nil => exact hw
    | cons x xs =>
      show w ++ '-' :: joinCh '-' (x :: xs) ≠ []
      simp [hw]

/-- `"-".join` of non-empty dash-free words has no double dash and neither
starts nor ends with a dash. -/
theorem joinDash_good : (ws : List Str) → (∀ w ∈ ws, w ≠ []) → (∀ w ∈ ws, '-' ∉ w) →
    NoDD (joinDash ws) ∧
    (∀ a, (joinDash ws).head? = some a → a ≠ '-') ∧
    (∀ a, (joinDash ws).getLast? = some a → a ≠ '-')
  | [], _, _ => by
    refine ⟨List.chain'_nil, ?_, ?_⟩ <;> intro a ha <;> simp [joinDash, joinCh] at ha
  | [w], hne, hdf => by
    have hw : '-' ∉ w := hdf w (List.mem_cons_self _ _)
    refine ⟨dashFree_noDD hw, ?_, ?_⟩
    · intro a ha
      intro had
      exact hw (had ▸ List.mem_of_mem_head? ha)
    · intro a ha
      intro had
      exact hw (had ▸ List.mem_of_mem_getLast? ha)
  | w :: x :: ws, hne, hdf => by
    have hw : w ≠ [] := hne w (List.mem_cons_self _ _)
    have hwd : '-' ∉ w := hdf w (List.mem_cons_self _ _)
    have hne' : ∀ v ∈ x :: ws, v ≠ [] := fun v hv => hne v (List.mem_cons_of_mem _ hv)
    have hdf' : ∀ v ∈ x :: ws, '-' ∉ v := fun v hv => hdf v (List.mem_cons_of_mem _ hv)
    obtain ⟨ihdd, ihh, ihl⟩ := joinDash_good (x :: ws) hne' hdf'
    have hjoin_ne : joinDash (x :: ws) ≠ [] := joinDash_ne_nil (by simp) hne'
    have hshow : joinDash (w :: x :: ws) = w ++ '-' :: joinDash (x :: ws) := rfl
    refine ⟨?_, ?_, ?_⟩
    · rw [hshow, NoDD, List.chain'_append]
      refine ⟨dashFree_noDD hwd, ?_, ?_⟩
      · rw [List.chain'_cons']
        refine ⟨?_, ihdd⟩
        intro y hy
        exact Or.inr (ihh y hy)
      · intro p hp y hy
        refine Or.inl ?_
        intro hpd
        exact hwd (hpd ▸ List.mem_of_mem_getLast? hp)
    · rw [hshow]
      intro a ha
      rw [List.head?_append] at ha
      cases w with
      | nil => exact absurd rfl hw
      | cons wc wr =>
        simp at ha
        intro had
        exact hwd (by rw [← ha] at had; exact had ▸ List.mem_cons_self wc wr)
    · rw [hshow]
      intro a ha
      rw [List.getLast?_append] at ha
      cases hjl : (joinDash (x :: ws)) with
      | nil => exact absurd hjl hjoin_ne
      | cons j js =>
        rw [show ('-' :: joinDash (x :: ws)).getLast? = (joinDash (x :: ws)).getLast? by
            rw [hjl]; exact List.getLast?_cons_cons] at ha
        rw [hjl] at ha
        have : (j :: js).getLast? ≠ none := by simp [List.getLast?]
        cases hgl : (j :: js).getLast? with
        | none => exact absurd hgl this
        | some b =>
          rw [hgl] at ha
          simp at ha
          rw [ha] at hgl
          exact ihl a (by rw [hjl]; exact hgl)

theorem rstripDash_getLast? {l : Str} {a : Char}
    (h : (rstripDash l).getLast? = some a) : a ≠ '-' := by
  unfold rstripDash at h
  rw [List.getLast?_reverse] at h
  have := head?_dropWhile_false h
  simpa using this

/-- Words selected by the trim loop come from its inputs. -/
theorem trimGo_mem (m : Nat) : ∀ (ps acc : List Str) (x : Str),
    x ∈ trimGo m ps acc → x ∈ ps ∨ x ∈ acc := by
  intro ps
  induction ps with
  | nil =>
    intro acc x hx
    rw [trimGo] at hx
    exact Or.inr (by simpa using hx)
  | cons p rest ih =>
    intro acc x hx
    rw [trimGo] at hx
    by_cases hacc : acc = []
    · rw [if_pos hacc] at hx
      rcases ih [p] x hx with h | h
      · exact Or.inl (List.mem_cons_of_mem _ h)
      · simp at h
        exact Or.inl (by simp [h])
    · rw [if_neg hacc] at hx
      by_cases hgt : (joinDash (acc.reverse ++ [p])).length > m
      · rw [if_pos hgt] at hx
        exact Or.inr (by simpa using hx)
      · rw [if_neg hgt] at hx
        rcases ih (p :: acc) x hx with h | h
        · exact Or.inl (List.mem_cons_of_mem _ h)
        · rcases List.mem_cons.mp h with h' | h'
          · exact Or.inl (by simp [h'])
          · exact Or.inr h'

/-- The trim loop never grows the joined candidate beyond the bound it
already satisfies. -/
theorem trimGo_len (m : Nat) : ∀ (ps acc : List Str), acc ≠ [] →
    (joinDash acc.reverse).length ≤ m →
    (joinDash (trimGo m ps acc)).length ≤ m := by
  intro ps
  induction ps with
  | nil =>
    intro acc _ hlen
    rw [trimGo]
    exact hlen
  | cons p rest ih =>
    intro acc hacc hlen
    rw [trimGo, if_neg hacc]
    by_cases hgt : (joinDash (acc.reverse ++ [p])).length > m
    · rw [if_pos hgt]
      exact hlen
    · rw [if_neg hgt]
      refine ih (p :: acc) (by simp) ?_
      rw [List.reverse_cons]
      omega

theorem trimGo_ne_nil (m : Nat) : ∀ (ps acc : List Str), acc ≠ [] →
    trimGo m ps acc ≠ [] := by
  intro ps
  induction ps with
  | nil =>
    intro acc hacc
    rw [trimGo]
    simpa using hacc
  | cons p rest ih =>
    intro acc hacc
    rw [trimGo, if_neg hacc]
    by_cases hgt : (joinDash (acc.reverse ++ [p])).length > m
    · rw [if_pos hgt]
      simpa using hacc
    · rw [if_neg hgt]
      exact ih (p :: acc) (by simp)

/-- C9 master invariant: whatever the input, `_trim_slug` emits a string
with no double dash that neither starts nor ends with a dash. -/
theorem trim_slug_inv (s : Str) (m : Nat) :
    NoDD (trim_slug s m) ∧
    (∀ a, (trim_slug s m).head? = some a → a ≠ '-') ∧
    (∀ a, (trim_slug s m).getLast? = some a → a ≠ '-') := by
  have hnodd : NoDD (stripDash (collapseDashes s)) := stripDash_noDD (collapse_noDD s)
  have hhead : ∀ a, (stripDash (collapseDashes s)).head? = some a → a ≠ '-' :=
    fun a ha => stripDash_head? ha
  have hlast : ∀ a, (stripDash (collapseDashes s)).getLast? = some a → a ≠ '-' :=
    fun a ha => stripDash_getLast? ha
  rw [trim_slug]
  by_cases hle : (stripDash (collapseDashes s)).length ≤ m
  · rw [if_pos hle]
    exact ⟨hnodd, hhead, hlast⟩
  · rw [if_neg hle]
    have hclne : stripDash (collapseDashes s) ≠ [] := by
      intro h
      rw [h] at hle
      simp at hle
    have hpne := sod_parts_ne (stripDash (collapseDashes s)) hclne hnodd
      (fun h => hhead '-' h rfl) (fun h => hlast '-' h rfl)
    have hpdf := sod_dashFree (stripDash (collapseDashes s))
    have hsel_sub : ∀ x ∈ trimGo m (splitOnDash (stripDash (collapseDashes s))) [],
        x ∈ splitOnDash (stripDash (collapseDashes s)) := by
      intro x hx
      rcases trimGo_mem m _ [] x hx with h | h
      · exact h
      · simp at h
    obtain ⟨jdd, jh, jl⟩ := joinDash_good (trimGo m (splitOnDash (stripDash (collapseDashes s))) [])
      (fun x hx => hpne x (hsel_sub x hx)) (fun x hx => hpdf x (hsel_sub x hx))
    by_cases hres : stripDash (joinDash (trimGo m (splitOnDash (stripDash (collapseDashes s))) [])) = []
    · rw [if_pos hres]
      refine ⟨?_, ?_, ?_⟩
      · refine noDD_within hnodd ?_
        exact ((rstripDash_pref _).trans (List.take_prefix m _)).isInfix
      · intro a ha
        refine hhead a ?_
        exact prefix_head?_eq (List.take_prefix m _)
          (prefix_head?_eq (rstripDash_pref _) ha)
      · intro a ha
        exact rstripDash_getLast? ha
    · rw [if_neg hres]
      exact ⟨stripDash_noDD jdd, fun a ha => stripDash_head? ha,
        fun a ha => stripDash_getLast? ha⟩

/-- C9: for every platform and every pair of input strings, the slug
returned by `make_folder_name` contains no two consecutive `-` characters
and neither starts nor ends with a separator. -/
theorem claim_C9 (isWin : Bool) (t c : Str) :
    ¬ (['-', '-'] <:+: make_folder_name isWin t c) ∧
    (make_folder_name isWin t c).head? ≠ some '-' ∧
    (make_folder_name isWin t c).getLast? ≠ some '-' := by
  rw [make_folder_name]
  exact ⟨noDD_no_double (trim_slug_inv _ 80).1,
    fun h => (trim_slug_inv _ 80).2.1 '-' h rfl,
    fun h => (trim_slug_inv _ 80).2.2 '-' h rfl⟩

/-! ### Dash-free infix bounds: the length argument for C1 -/

/-- A dash-free prefix of `a ++ "-" ++ b` is a prefix of `a`. -/
theorem prefix_dashfree_cross : ∀ {a : Str} {w b : Str},
    w <+: (a ++ '-' :: b) → '-' ∉ w → w <+: a := by
  intro a
  induction a with
  | nil =>
    intro w b hp hdf
    cases w with
    | nil => exact List.nil_prefix
    | cons c w' =>
      rw [List.nil_append, List.cons_prefix_cons] at hp
      exact absurd (hp.1 ▸ List.mem_cons_self c w') hdf
  | cons x a' ih =>
    intro w b hp hdf
    cases w with
    | nil => exact List.nil_prefix
    | cons c w' =>
      rw [List.cons_append, List.cons_prefix_cons] at hp
      rw [List.cons_prefix_cons]
      exact ⟨hp.1, ih hp.2 (fun hm => hdf (List.mem_cons_of_mem _ hm))⟩

/-- A dash-free infix of `a ++ "-" ++ b` lies wholly in `a` or wholly in `b`. -/
theorem infix_dashfree_cross : ∀ {a : Str} {w b : Str},
    w <:+: (a ++ '-' :: b) → '-' ∉ w → w <:+: a ∨ w <:+: b := by
  intro a
  induction a with
  | nil =>
    intro w b hinf hdf
    rw [List.nil_append] at hinf
    rcases List.infix_cons_iff.mp hinf with hp | hi
    · cases w with
      | nil => exact Or.inl List.nil_infix
      | cons c w' =>
        rw [List.cons_prefix_cons] at hp
        exact absurd (hp.1 ▸ List.mem_cons_self c w') hdf
    · exact Or.inr hi
  | cons x a' ih =>
    intro w b hinf hdf
    rw [List.cons_append] at hinf
    rcases List.infix_cons_iff.mp hinf with hp | hi
    · cases w with
      | nil => exact Or.inl List.nil_infix
      | cons c w' =>
        rw [List.cons_prefix_cons] at hp
        have hw' : w' <+: a' :=
          prefix_dashfree_cross hp.2 (fun hm => hdf (List.mem_cons_of_mem _ hm))
        exact Or.inl (List.IsPrefix.isInfix
          (List.cons_prefix_cons.mpr ⟨hp.1, hw'⟩))
    · rcases ih hi hdf with h | h
      · exact Or.inl (h.trans (List.suffix_cons x a').isInfix)
      · exact Or.inr h

theorem DFIB_within {l' l : Str} {L : Nat} (hinf : l' <:+: l) (h : DFIB l L) :
    DFIB l' L :=
  fun w hdf hw => h w hdf (hw.trans hinf)

theorem DFIB_append_dash {a b : Str} {L : Nat} (ha : DFIB a L) (hb : DFIB b L) :
    DFIB (a ++ '-' :: b) L := by
  intro w hdf hinf
  rcases infix_dashfree_cross hinf hdf with h | h
  · exact ha w hdf h
  · exact hb w hdf h

/-- A short word bounds all its infixes. -/
theorem DFIB_of_short {w : Str} {L : Nat} (h : w.length ≤ L) : DFIB w L :=
  fun _v _ hinf => le_trans hinf.length_le h

theorem DFIB_join : ∀ {ws : List Str} {L : Nat},
    (∀ p ∈ ws, p.length ≤ L) → DFIB (joinDash ws) L := by
  intro ws
  induction ws with
  | nil =>
    intro L _
    intro _v _ hinf
    rw [show joinDash ([] : List Str) = [] from rfl] at hinf
    exact le_trans hinf.length_le (Nat.zero_le L)
  | cons w rest ih =>
    intro L hbound
    cases rest with
    | nil => exact DFIB_of_short (hbound w (List.mem_cons_self _ _))
    | cons x ws' =>
      have hjoin : joinDash (w :: x :: ws') = w ++ '-' :: joinDash (x :: ws') := rfl
      rw [hjoin]
      exact DFIB_append_dash (DFIB_of_short (hbound w (List.mem_cons_self _ _)))
        (ih (fun p hp => hbound p (List.mem_cons_of_mem _ hp)))

/-- A dash-free prefix of the collapsed string is a prefix of the original. -/
theorem collapse_dashfree_pre : ∀ (l : Str) {w : Str},
    w <+: collapseDashes l → '-' ∉ w → w <+: l := by
  intro l
  induction l using collapseDashes.induct with
  | case1 =>
    intro w hp _
    rw [show collapseDashes [] = [] from rfl] at hp
    exact hp
  | case2 c =>
    intro w hp _
    exact hp
  | case3 c d rest hcd ih =>
    intro w hp hdf
    rw [collapseDashes.eq_3, if_pos hcd] at hp
    have h1 : w <+: d :: rest := ih hp hdf
    cases w with
    | nil => exact List.nil_prefix
    | cons e w' =>
      rw [List.cons_prefix_cons] at h1
      exact absurd ((h1.1.trans hcd.2) ▸ List.mem_cons_self e w') hdf
  | case4 c d rest hcd ih =>
    intro w hp hdf
    rw [collapseDashes.eq_3, if_neg hcd] at hp
    cases w with
    | nil => exact List.nil_prefix
    | cons e w' =>
      rw [List.cons_prefix_cons] at hp
      rw [List.cons_prefix_cons]
      exact ⟨hp.1, ih hp.2 (fun hm => hdf (List.mem_cons_of_mem _ hm))⟩

/-- A dash-free infix of the collapsed string is an infix of the original. -/
theorem collapse_dashfree_within : ∀ (l : Str) {w : Str},
    w <:+: collapseDashes l → '-' ∉ w → w <:+: l := by
  intro l
  induction l using collapseDashes.induct with
  | case1 =>
    intro w hinf _
    rw [show collapseDashes [] = [] from rfl] at hinf
    exact hinf
  | case2 c =>
    intro w hinf _
    exact hinf
  | case3 c d rest hcd ih =>
    intro w hinf hdf
    rw [collapseDashes.eq_3, if_pos hcd] at hinf
    exact (ih hinf hdf).trans (List.suffix_cons c (d :: rest)).isInfix
  | case4 c d rest hcd ih =>
    intro w hinf hdf
    rw [collapseDashes.eq_3, if_neg hcd] at hinf
    rcases List.infix_cons_iff.mp hinf with hp | hi
    · cases w with
      | nil => exact List.nil_infix
      | cons e w' =>
        rw [List.cons_prefix_cons] at hp
        have hw' : w' <+: d :: rest :=
          collapse_dashfree_pre (d :: rest) hp.2
            (fun hm => hdf (List.mem_cons_of_mem _ hm))
        exact (List.cons_prefix_cons.mpr ⟨hp.1, hw'⟩).isInfix
    · exact (ih hi hdf).trans (List.suffix_cons c (d :: rest)).isInfix

theorem DFIB_collapse {l : Str} {L : Nat} (h : DFIB l L) : DFIB (collapseDashes l) L :=
  fun w hdf hinf => h w hdf (collapse_dashfree_within l hinf hdf)

theorem DFIB_stripDash {l : Str} {L : Nat} (h : DFIB l L) : DFIB (stripDash l) L :=
  DFIB_within (stripDash_within l) h

theorem DFIB_stripDotSpace {l : Str} {L : Nat} (h : DFIB l L) : DFIB (stripDotSpace l) L :=
  DFIB_within (stripDotSpace_within l) h

/-- Every word of a join is an infix of the join. -/
theorem mem_join_within : ∀ {ws : List Str} {w : Str}, w ∈ ws → w <:+: joinDash ws := by
  intro ws
  induction ws with
  | nil => intro w hw; simp at hw
  | cons w0 rest ih =>
    intro w hw
    rcases List.mem_cons.mp hw with h | h
    · subst h
      cases rest with
      | nil => exact List.infix_refl w
      | cons x ws' =>
        exact (List.prefix_append w ('-' :: joinDash (x :: ws'))).isInfix
    · cases rest with
      | nil => simp at h
      | cons x ws' =>
        have h1 : w <:+: joinDash (x :: ws') := ih h
        have h2 : joinDash (x :: ws') <:+ w0 ++ '-' :: joinDash (x :: ws') := by
          rw [show w0 ++ '-' :: joinDash (x :: ws') =
            (w0 ++ ['-']) ++ joinDash (x :: ws') by simp]
          exact List.suffix_append _ _
        exact h1.trans h2.isInfix

/-- Every `split("-")` chunk is an infix of the split string. -/
theorem sod_part_within {l : Str} {p : Str} (hp : p ∈ splitOnDash l) : p <:+: l :=
  join_sod l ▸ mem_join_within hp

/-- Under a dash-free-infix bound, all trim chunks obey the length bound. -/
theorem parts_of_DFIB {l : Str} {L : Nat} (h : DFIB l L) :
    ∀ p ∈ splitOnDash (stripDash (collapseDashes l)), p.length ≤ L := by
  intro p hp
  exact (DFIB_stripDash (DFIB_collapse h)) p (sod_dashFree _ p hp) (sod_part_within hp)

/-- Under a dash-free-infix bound of the input, `_trim_slug` meets its
length bound: the loop keeps whole chunks while the candidate fits, and
the first chunk itself fits by the bound. -/
theorem trim_slug_len {s : Str} {m : Nat} (h : DFIB s m) : (trim_slug s m).length ≤ m := by
  rw [trim_slug]
  by_cases hle : (stripDash (collapseDashes s)).length ≤ m
  · rw [if_pos hle]
    exact hle
  · rw [if_neg hle]
    have hparts := parts_of_DFIB h
    by_cases hres : stripDash
        (joinDash (trimGo m (splitOnDash (stripDash (collapseDashes s))) [])) = []
    · rw [if_pos hres]
      exact le_trans (rstripDash_pref _).length_le (List.length_take_le _ _)
    · rw [if_neg hres]
      have h1 : (joinDash (trimGo m (splitOnDash (stripDash (collapseDashes s))) [])).length
          ≤ m := by
        rcases hsod : splitOnDash (stripDash (collapseDashes s)) with _ | ⟨p0, rest⟩
        · exact absurd hsod (sod_ne_nil _)
        · rw [show trimGo m (p0 :: rest) [] = trimGo m rest [p0] from by
            rw [trimGo, if_pos rfl]]
          refine trimGo_len m rest [p0] (by simp) ?_
          have hp0 : p0 ∈ splitOnDash (stripDash (collapseDashes s)) := by
            rw [hsod]
            simp
          simpa [joinDash, joinCh] using hparts p0 hp0
      exact le_trans (stripDash_within _).length_le h1

/-- `_trim_slug` preserves the dash-free-infix bound: its output is built
of whole chunks of its input. -/
theorem trim_slug_DFIB {s : Str} {L m : Nat} (h : DFIB s L) : DFIB (trim_slug s m) L := by
  rw [trim_slug]
  by_cases hle : (stripDash (collapseDashes s)).length ≤ m
  · rw [if_pos hle]
    exact DFIB_stripDash (DFIB_collapse h)
  · rw [if_neg hle]
    by_cases hres : stripDash
        (joinDash (trimGo m (splitOnDash (stripDash (collapseDashes s))) [])) = []
    · rw [if_pos hres]
      exact DFIB_within ((rstripDash_pref _).trans (List.take_prefix m _)).isInfix
        (DFIB_stripDash (DFIB_collapse h))
    · rw [if_neg hres]
      refine DFIB_stripDash (DFIB_join ?_)
      intro p hp
      refine parts_of_DFIB h p ?_
      rcases trimGo_mem m _ [] p hp with h' | h'
      · exact h'
      · simp at h'

theorem jobposting_DFIB : DFIB (("Job-Posting".toList)) 80 := by
  rw [show ("Job-Posting".toList) = joinDash [("Job".toList), ("Posting".toList)] from rfl]
  exact DFIB_join (by decide)

/-- The platform pass preserves the bound: it only strips characters or
appends the dash-separated word `job`. -/
theorem normalize_DFIB (isWin : Bool) {s : Str} (h : DFIB s 80) :
    DFIB (normalize_slug_for_platform isWin s) 80 := by
  have hC : DFIB (stripDotSpace s) 80 := DFIB_stripDotSpace h
  have hCjob : DFIB (stripDotSpace (stripDotSpace s ++ '-' :: ("job".toList))) 80 :=
    DFIB_stripDotSpace (DFIB_append_dash hC (DFIB_of_short (by decide)))
  rw [normalize_slug_for_platform]
  dsimp only
  repeat' split
  all_goals first
    | exact jobposting_DFIB
    | exact hCjob
    | exact hC

theorem tokensByGo_chars (p : Char → Bool) : ∀ (s cur : Str),
    (∀ ch ∈ cur, p ch = true) →
    ∀ w ∈ tokensByGo p s cur, ∀ ch ∈ w, p ch = true := by
  intro s
  induction s with
  | nil =>
    intro cur hcur w hw ch hch
    rw [tokensByGo] at hw
    by_cases hc : cur = []
    · rw [if_pos hc] at hw
      simp at hw
    · rw [if_neg hc] at hw
      simp at hw
      subst hw
      exact hcur ch (by simpa using hch)
  | cons c rest ih =>
    intro cur hcur w hw ch hch
    rw [tokensByGo] at hw
    by_cases hpc : p c
    · rw [if_pos hpc] at hw
      refine ih (c :: cur) ?_ w hw ch hch
      intro x hx
      rcases List.mem_cons.mp hx with h' | h'
      · subst h'
        exact hpc
      · exact hcur x h'
    · rw [if_neg hpc] at hw
      by_cases hc : cur = []
      · rw [if_pos hc] at hw
        exact ih [] (by simp) w hw ch hch
      · rw [if_neg hc] at hw
        rcases List.mem_cons.mp hw with h' | h'
        · subst h'
          exact hcur ch (by simpa using hch)
        · exact ih [] (by simp) w h' ch hch

theorem split_words_chars {s : Str} : ∀ w ∈ split_words s, ∀ ch ∈ w, isAlnumCh ch = true :=
  tokensByGo_chars isAlnumCh s [] (by simp)

theorem split_words_dashFree {s : Str} : ∀ w ∈ split_words s, '-' ∉ w := by
  intro w hw hmem
  exact absurd (split_words_chars w hw '-' hmem) (by decide)

theorem abbreviate_title_DFIB (t : Str) : DFIB (abbreviate_title t) 80 := by
  rw [abbreviate_title]
  refine DFIB_join ?_
  intro p hp
  obtain ⟨w, _, rfl⟩ := List.mem_map.mp hp
  exact le_trans (List.length_take_le _ _) (by omega)

theorem filter_company_words_subset {ws : List Str} :
    ∀ w ∈ filter_company_words ws, w ∈ ws := by
  intro w hw
  rw [filter_company_words_eq] at hw
  exact (List.dropWhile_suffix _).subset
    ((List.takeWhile_prefix _).subset (List.mem_of_mem_take hw))

theorem company_slug_DFIB {c : Str} (h : ∀ w ∈ split_words c, w.length ≤ 80) :
    DFIB (company_slug c) 80 := by
  rw [company_slug]
  split
  · refine DFIB_join ?_
    intro p hp
    exact h p (List.mem_of_mem_take hp)
  · refine DFIB_join ?_
    intro p hp
    exact h p (filter_company_words_subset p hp)

set_option maxRecDepth 4000 in
/-- C1 (counterexample): a company made of one 100-character word defeats
the 80-character bound — the trim loop keeps the first token whole and the
hard-truncation branch never runs, so the claim as stated fails. -/
theorem claim_C1_counterexample :
    ¬ ((make_folder_name false [] (List.replicate 100 'a')).length ≤ 80) := by
  decide

/-- C1 (amended): whenever every word of the company string is at most 80
characters long, the slug is at most 80 characters; trimming drops whole
trailing tokens until the candidate fits, but a first token longer than
the limit is kept whole rather than hard-truncated (that branch of
`_trim_slug` is unreachable), as the counterexample shows. -/
theorem claim_C1_amended (isWin : Bool) (t c : Str)
    (h : ∀ w ∈ split_words c, w.length ≤ 80) :
    (make_folder_name isWin t c).length ≤ 80 := by
  rw [make_folder_name]
  refine trim_slug_len (normalize_DFIB isWin ?_)
  split
  · exact trim_slug_DFIB (DFIB_append_dash (abbreviate_title_DFIB t) (company_slug_DFIB h))
  · refine trim_slug_DFIB ?_
    split
    · exact abbreviate_title_DFIB t
    · split
      · exact company_slug_DFIB h
      · exact jobposting_DFIB

/-- C1 (witness): a concrete long title/company pair stays within bound. -/
theorem claim_C1_witness :
    (∀ w ∈ split_words (("Acme Analytics And Automation Incorporated".toList)),
      w.length ≤ 80) ∧
    (make_folder_name false (("Senior Software Engineer Machine Learning".toList))
      (("Acme Analytics And Automation Incorporated".toList))).length ≤ 80 := by
  refine ⟨by decide, ?_⟩
  exact claim_C1_amended false (("Senior Software Engineer Machine Learning".toList))
    (("Acme Analytics And Automation Incorporated".toList)) (by decide)

end TurboApply
